import Mathlib

set_option maxRecDepth 8000

/-!
Verification of the armor geometry codec of `src/dev/mock-geometry.py`.

The encoder is embedded faithfully from the Python source: bytes are natural
numbers below 256, byte buffers are lists, the output file is modelled as a
pair of a write position and a buffer so that the source's `write`/`seek`/`tell`
back-patching sequence is reproduced step by step, and every call to Python's
`int.to_bytes(4, byteorder='little')` — which raises `OverflowError` outside
`[0, 2^32)` — is modelled as an `Option`-valued conversion.  Vertex coordinates
are represented by the bit patterns of the IEEE-754 single-precision floats
that `struct.pack('<fff', ...)` writes, i.e. by naturals below `2^32`.
-/

namespace Quartersbrief

/-- Little-endian serialization of `v` into `n` bytes, the byte string produced
by Python's `int.to_bytes(n, byteorder='little')` on an in-range value. -/
def toLE : Nat → Nat → List Nat
  | 0, _ => []
  | n + 1, v => v % 256 :: toLE n (v / 256)

/-- Python's `id.to_bytes(4, byteorder='little')` on an integer piece id:
raises `OverflowError` (modelled as `none`) unless `0 ≤ id < 2^32`. -/
def toBytes4 (v : Int) : Option (List Nat) :=
  if 0 ≤ v ∧ v < 2 ^ 32 then some (toLE 4 v.toNat) else none

/-- Python's `n.to_bytes(4, byteorder='little')` on a length or count. -/
def toBytes4N (n : Nat) : Option (List Nat) :=
  if n < 2 ^ 32 then some (toLE 4 n) else none

/-- A vertex: the bit patterns of three IEEE-754 single-precision floats. -/
structure Vertex where
  x : Nat
  y : Nat
  z : Nat
deriving DecidableEq

/-- A triangle as it appears in the input record: a list of vertices
(well-formed triangles have exactly three). -/
abbrev Triangle := List Vertex

/-- A piece: a list of triangles. -/
abbrev Piece := List Triangle

/-- The armor record: an ordered mapping from piece id to piece, insertion
order preserved, as iterated by the encoder. -/
abbrev ArmorRecord := List (Int × Piece)

/-- The bytes `struct.pack('<fff', *vertex)` followed by the 4 opaque `0xFF`
bytes the encoder writes after every vertex. -/
def packVertex (v : Vertex) : List Nat :=
  toLE 4 v.x ++ toLE 4 v.y ++ toLE 4 v.z ++ List.replicate 4 0xff

/-- The bytes the encoder's loop body appends for one piece: the piece id, 24
opaque `0xFF` bytes, the flattened vertex count, then the vertex data. -/
def pieceBytes (p : Int × Piece) : Option (List Nat) := do
  let vertices := p.2.flatten
  let idb ← toBytes4 p.1
  let nb ← toBytes4N vertices.length
  return idb ++ List.replicate 24 0xff ++ nb ++ (vertices.map packVertex).flatten

/-- The content region (`data` in the source): 36 opaque `0xFF` bytes, the
piece count, then the per-piece bytes in record order. -/
def contentBytes (armor : ArmorRecord) : Option (List Nat) := do
  let cnt ← toBytes4N armor.length
  let ps ← armor.mapM pieceBytes
  return List.replicate 36 0xff ++ cnt ++ ps.flatten

/-! ### MD5 (`hashlib.md5(...).hexdigest()`) -/

/-- Left-rotation of a 32-bit word. -/
def rotl32 (x n : Nat) : Nat :=
  ((x <<< n) ||| (x >>> (32 - n))) % 2 ^ 32

/-- The 64 MD5 round constants `floor(2^32 * abs(sin(i + 1)))`. -/
def md5K : List Nat :=
  [0xd76aa478, 0xe8c7b756, 0x242070db, 0xc1bdceee,
   0xf57c0faf, 0x4787c62a, 0xa8304613, 0xfd469501,
   0x698098d8, 0x8b44f7af, 0xffff5bb1, 0x895cd7be,
   0x6b901122, 0xfd987193, 0xa679438e, 0x49b40821,
   0xf61e2562, 0xc040b340, 0x265e5a51, 0xe9b6c7aa,
   0xd62f105d, 0x02441453, 0xd8a1e681, 0xe7d3fbc8,
   0x21e1cde6, 0xc33707d6, 0xf4d50d87, 0x455a14ed,
   0xa9e3e905, 0xfcefa3f8, 0x676f02d9, 0x8d2a4c8a,
   0xfffa3942, 0x8771f681, 0x6d9d6122, 0xfde5380c,
   0xa4beea44, 0x4bdecfa9, 0xf6bb4b60, 0xbebfbc70,
   0x289b7ec6, 0xeaa127fa, 0xd4ef3085, 0x04881d05,
   0xd9d4d039, 0xe6db99e5, 0x1fa27cf8, 0xc4ac5665,
   0xf4292244, 0x432aff97, 0xab9423a7, 0xfc93a039,
   0x655b59c3, 0x8f0ccc92, 0xffeff47d, 0x85845dd1,
   0x6fa87e4f, 0xfe2ce6e0, 0xa3014314, 0x4e0811a1,
   0xf7537e82, 0xbd3af235, 0x2ad7d2bb, 0xeb86d391]

/-- The MD5 per-round left-rotation amounts. -/
def md5S : List Nat :=
  [7, 12, 17, 22, 7, 12, 17, 22, 7, 12, 17, 22, 7, 12, 17, 22,
   5, 9, 14, 20, 5, 9, 14, 20, 5, 9, 14, 20, 5, 9, 14, 20,
   4, 11, 16, 23, 4, 11, 16, 23, 4, 11, 16, 23, 4, 11, 16, 23,
   6, 10, 15, 21, 6, 10, 15, 21, 6, 10, 15, 21, 6, 10, 15, 21]

/-- Group a byte list into little-endian 32-bit words. -/
def bytesToWords : List Nat → List Nat
  | b0 :: b1 :: b2 :: b3 :: rest =>
    (b0 + 256 * (b1 + 256 * (b2 + 256 * b3))) :: bytesToWords rest
  | _ => []

/-- One MD5 round: round index `i`, message words `M`, state `(a, b, c, d)`. -/
def md5Step (M : List Nat) (st : Nat × Nat × Nat × Nat) (i : Nat) :
    Nat × Nat × Nat × Nat :=
  let a := st.1
  let b := st.2.1
  let c := st.2.2.1
  let d := st.2.2.2
  let f :=
    if i < 16 then (b &&& c) ||| ((0xffffffff ^^^ b) &&& d)
    else if i < 32 then (d &&& b) ||| ((0xffffffff ^^^ d) &&& c)
    else if i < 48 then b ^^^ c ^^^ d
    else c ^^^ (b ||| (0xffffffff ^^^ d))
  let g :=
    if i < 16 then i
    else if i < 32 then (5 * i + 1) % 16
    else if i < 48 then (3 * i + 5) % 16
    else (7 * i) % 16
  let w := (f + a + md5K.getD i 0 + M.getD g 0) % 2 ^ 32
  (d, (b + rotl32 w (md5S.getD i 0)) % 2 ^ 32, b, c)

/-- Process one 64-byte chunk, adding the round results into the state. -/
def md5Chunk (st : Nat × Nat × Nat × Nat) (chunk : List Nat) :
    Nat × Nat × Nat × Nat :=
  let M := bytesToWords chunk
  let r := (List.range 64).foldl (md5Step M) st
  ((st.1 + r.1) % 2 ^ 32, (st.2.1 + r.2.1) % 2 ^ 32,
   (st.2.2.1 + r.2.2.1) % 2 ^ 32, (st.2.2.2 + r.2.2.2) % 2 ^ 32)

/-- MD5 padding: `0x80`, zeros to 56 mod 64, then the bit length in 8
little-endian bytes. -/
def md5Pad (msg : List Nat) : List Nat :=
  msg ++ 0x80 :: List.replicate ((55 + 64 - msg.length % 64) % 64) 0
      ++ toLE 8 (msg.length * 8)

/-- Split a byte list into successive 64-byte chunks. -/
def chunks64 : List Nat → List (List Nat)
  | [] => []
  | a :: l => ((a :: l).take 64) :: chunks64 ((a :: l).drop 64)
termination_by l => l.length
decreasing_by simp [List.drop]; omega

/-- One hexadecimal digit, lowercase. -/
def hexDigit (n : Nat) : Char :=
  if n < 10 then Char.ofNat (48 + n) else Char.ofNat (87 + n)

/-- Lowercase hexadecimal rendering of a byte list. -/
def bytesToHex (bs : List Nat) : String :=
  String.mk (bs.flatMap fun b => [hexDigit (b / 16), hexDigit (b % 16)])

/-- The digest `hashlib.md5(msg).hexdigest()`. -/
def md5hex (msg : List Nat) : String :=
  let st := (chunks64 (md5Pad msg)).foldl md5Chunk
    (0x67452301, 0xefcdab89, 0x98badcfe, 0x10325476)
  bytesToHex (toLE 4 st.1 ++ toLE 4 st.2.1 ++ toLE 4 st.2.2.1 ++ toLE 4 st.2.2.2)

/-! ### The output file -/

/-- A writable file: current position plus buffer contents.  `write` overwrites
at the current position and advances it, extending the buffer as needed, like a
Python binary file object. -/
structure File where
  pos : Nat
  buf : List Nat

/-- Python's `f.write(bs)`. -/
def File.write (f : File) (bs : List Nat) : File :=
  ⟨f.pos + bs.length, f.buf.take f.pos ++ bs ++ f.buf.drop (f.pos + bs.length)⟩

/-- Python's `f.seek(p)`. -/
def File.seek (f : File) (p : Nat) : File := ⟨p, f.buf⟩

/-- Python's `f.tell()`. -/
def File.tell (f : File) : Nat := f.pos

/-- The string whose length the source writes as the section-name-length field:
`len('CM_PA_united.armor ')`. -/
def sectionNameLengthString : String := "CM_PA_united.armor "

/-- The trailing section-name bytes: `'CM_PA_united.armor\x00'.encode('latin-1')`. -/
def sectionNameBytes : List Nat := "CM_PA_united.armor\x00".data.map Char.toNat

/-- The encoder's result: the final buffer plus the metadata the source writes
back into the JSON file (`size` and `hash`). -/
structure Encoded where
  buf : List Nat
  size : Nat
  hash : String
deriving DecidableEq

/-- The encoder, mirroring the write/seek sequence of `mock-geometry.py` step
by step (including the two back-patched fields). -/
def encode (armor : ArmorRecord) : Option Encoded :=
  let f := File.write ⟨0, []⟩ (List.replicate 20 0xff)
  if armor.length = 0 then
    let f := f.write (toLE 4 0)
    let f := f.write (List.replicate (0x40 - f.tell) 0xff)
    let f := f.write (toLE 4 0)
    some ⟨f.buf, 0, md5hex []⟩
  else do
    let f := f.write (toLE 4 1)
    let f := f.write (List.replicate (0x40 - f.tell) 0xff)
    let f := f.write (toLE 4 0x60)
    let f := f.write (List.replicate 4 0x00)
    let f := f.write (List.replicate (0x60 - f.tell) 0xff)
    let armorContentLengthPosition := f.tell
    let f := f.write (List.replicate 4 0x00)
    let f := f.write (List.replicate 4 0x00)
    let sectionNamePositionMark := f.tell
    let f := f.write (toLE 4 sectionNameLengthString.length)
    let f := f.write (List.replicate 4 0x00)
    let sectionNamePositionPosition := f.tell
    let f := f.write (List.replicate 4 0x00)
    let f := f.write (List.replicate 4 0x00)
    let armorContentLengthMark := f.tell
    let data ← contentBytes armor
    let f := f.write data
    let armorContentLength := f.tell - armorContentLengthMark
    let sectionNamePosition := f.tell
    let f := f.write sectionNameBytes
    let f := f.seek armorContentLengthPosition
    let lb ← toBytes4N armorContentLength
    let f := f.write lb
    let f := f.seek sectionNamePositionPosition
    let pb ← toBytes4N (sectionNamePosition - sectionNamePositionMark)
    let f := f.write pb
    return ⟨f.buf, armorContentLength, md5hex data⟩

/-! ### The decoder

The source repository only contains the encoder; the decoder below is the
inverse the spec describes (reading back the fields the encoder wrote). -/

/-- Read a 4-byte little-endian unsigned field off the front of a byte list,
failing on a truncated buffer. -/
def takeLE4 : List Nat → Option (Nat × List Nat)
  | b0 :: b1 :: b2 :: b3 :: rest =>
    some (b0 + 256 * (b1 + 256 * (b2 + 256 * b3)), rest)
  | _ => none

/-- Skip `n` opaque bytes, failing on a truncated buffer. -/
def skip (n : Nat) (l : List Nat) : Option (List Nat) :=
  if n ≤ l.length then some (l.drop n) else none

/-- Modelled from the spec: read one vertex record — three little-endian
single-precision floats (kept as bit patterns) followed by 4 opaque bytes. -/
def parseVertex (l : List Nat) : Option (Vertex × List Nat) := do
  let (x, l) ← takeLE4 l
  let (y, l) ← takeLE4 l
  let (z, l) ← takeLE4 l
  let l ← skip 4 l
  return (⟨x, y, z⟩, l)

/-- Modelled from the spec: read `n` consecutive vertex records. -/
def parseVertices : Nat → List Nat → Option (List Vertex × List Nat)
  | 0, l => some ([], l)
  | n + 1, l => do
    let (v, l) ← parseVertex l
    let (vs, l) ← parseVertices n l
    return (v :: vs, l)

/-- Modelled from the spec: read one piece — id, 24 opaque bytes, vertex
count, then that many vertex records; the vertices are still flattened. -/
def parsePiece (l : List Nat) : Option ((Int × List Vertex) × List Nat) := do
  let (id, l) ← takeLE4 l
  let l ← skip 24 l
  let (n, l) ← takeLE4 l
  let (vs, l) ← parseVertices n l
  return ((Int.ofNat id, vs), l)

/-- Modelled from the spec: read `n` consecutive pieces. -/
def parsePieces : Nat → List Nat → Option (List (Int × List Vertex) × List Nat)
  | 0, l => some ([], l)
  | n + 1, l => do
    let (p, l) ← parsePiece l
    let (ps, l) ← parsePieces n l
    return (p :: ps, l)

/-- Modelled from the spec: regroup a flattened vertex stream into triangles
in fixed groups of 3, failing when the count is not a multiple of 3. -/
def chunk3 : List Vertex → Option (List Triangle)
  | [] => some []
  | a :: b :: c :: rest => (chunk3 rest).map fun ts => [a, b, c] :: ts
  | _ => none

/-- Modelled from the spec: the decoder, absent from the source (which only
contains the encoder) and described in the spec as the encoder's inverse.  It
reads the block count at offset 20; on `0` it returns the empty record, on `1`
it follows the armor-section pointer at `0x40`, reads the stored content
length, slices the content region (the three 8-byte header field pairs precede
it), parses 36 opaque bytes, the piece count and the pieces, requires the
parse to consume exactly the stored content length, regroups each piece's
vertices into triangles, and recomputes the metadata from the content bytes.
Any other block count is rejected. -/
def decode (buf : List Nat) : Option (ArmorRecord × Nat × String) := do
  let (blockCount, _) ← takeLE4 (buf.drop 20)
  if blockCount = 0 then
    return ([], 0, md5hex [])
  else if blockCount = 1 then do
    let (p, _) ← takeLE4 (buf.drop 0x40)
    let (contentLength, _) ← takeLE4 (buf.drop p)
    let content := (buf.drop (p + 24)).take contentLength
    if content.length = contentLength then do
      let l ← skip 36 content
      let (n, l) ← takeLE4 l
      let (ps, l) ← parsePieces n l
      if l = [] then do
        let record ← ps.mapM fun q => (chunk3 q.2).map fun ts => (q.1, ts)
        return (record, contentLength, md5hex content)
      else none
    else none
  else none

/-! ### Well-formedness -/

/-- The bit pattern of a finite (neither infinite nor NaN) single-precision
float: the eight exponent bits are not all ones. -/
def IsFiniteF32 (w : Nat) : Prop := w < 2 ^ 32 ∧ (w / 2 ^ 23) % 256 ≠ 255

instance (w : Nat) : Decidable (IsFiniteF32 w) := by
  unfold IsFiniteF32; infer_instance

/-- All three coordinates of a vertex are finite float bit patterns. -/
def WFVertex (v : Vertex) : Prop :=
  IsFiniteF32 v.x ∧ IsFiniteF32 v.y ∧ IsFiniteF32 v.z

instance (v : Vertex) : Decidable (WFVertex v) := by
  unfold WFVertex; infer_instance

/-- A well-formed record: every triangle has exactly 3 vertices and every
coordinate is the bit pattern of a finite single-precision float. -/
def WF (r : ArmorRecord) : Prop :=
  ∀ p ∈ r, ∀ t ∈ p.2, t.length = 3 ∧ ∀ v ∈ t, WFVertex v

instance (r : ArmorRecord) : Decidable (WF r) := by
  unfold WF; infer_instance

/-! ### Serialization lemmas -/

theorem toLE_length (n : Nat) : ∀ v : Nat, (toLE n v).length = n := by
  induction n with
  | zero => intro v; rfl
  | succ n ih => intro v; simp [toLE, ih]

theorem takeLE4_toLE (v : Nat) (rest : List Nat) (h : v < 2 ^ 32) :
    takeLE4 (toLE 4 v ++ rest) = some (v, rest) := by
  simp only [toLE, List.cons_append, List.nil_append, takeLE4,
    Option.some.injEq, Prod.mk.injEq]
  exact ⟨by omega, trivial⟩

theorem skip_replicate (n a : Nat) (rest : List Nat) :
    skip n (List.replicate n a ++ rest) = some rest := by
  simp [skip, List.drop_append_eq_append_drop, List.drop_replicate]

theorem takeLE4_toLE_fst (v : Nat) (rest : List Nat) (h : v < 2 ^ 32) :
    (takeLE4 (toLE 4 v ++ rest)).map Prod.fst = some v := by
  rw [takeLE4_toLE v rest h]; rfl

/-! ### File lemmas -/

/-- A write at the end of the buffer appends. -/
theorem write_append (p : Nat) (b bs : List Nat) (h : b.length = p) :
    File.write ⟨p, b⟩ bs = ⟨p + bs.length, b ++ bs⟩ := by
  subst h
  simp [File.write, List.take_length, List.drop_eq_nil_of_le]

/-- A write strictly inside the buffer passes over a fully-retained prefix. -/
theorem write_peel (A R bs : List Nat) (p : Nat) (h : A.length ≤ p) :
    File.write ⟨p, A ++ R⟩ bs =
      ⟨p + bs.length, A ++ (File.write ⟨p - A.length, R⟩ bs).buf⟩ := by
  have h1 : (A ++ R).take p = A ++ R.take (p - A.length) := by
    rw [List.take_append_eq_append_take, List.take_of_length_le h]
  have h2 : (A ++ R).drop (p + bs.length) = R.drop (p - A.length + bs.length) := by
    rw [List.drop_append_eq_append_drop, List.drop_eq_nil_of_le (by omega),
      List.nil_append]
    congr 1
    omega
  simp only [File.write, h1, h2, List.append_assoc]

/-- A write at position 0 overwriting a block of exactly its own length. -/
theorem write_over (B R bs : List Nat) (hB : B.length = bs.length) :
    File.write ⟨0, B ++ R⟩ bs = ⟨bs.length, bs ++ R⟩ := by
  simp only [File.write, List.take_zero, List.nil_append, Nat.zero_add]
  rw [List.drop_append_eq_append_drop, List.drop_eq_nil_of_le (by omega),
    List.nil_append, hB, Nat.sub_self, List.drop_zero]

/-! ### The shape of a non-empty encoding -/

/-- The final buffer produced by the encoder on a non-empty record whose
content region is `data` (after both back-patches). -/
def bufShape (data : List Nat) : List Nat :=
  List.replicate 20 0xff ++ toLE 4 1 ++ List.replicate 40 0xff ++
  toLE 4 0x60 ++ List.replicate 4 0x00 ++ List.replicate 24 0xff ++
  toLE 4 data.length ++ List.replicate 4 0x00 ++
  toLE 4 19 ++ List.replicate 4 0x00 ++
  toLE 4 (data.length + 16) ++ List.replicate 4 0x00 ++
  data ++ sectionNameBytes

theorem encode_shape (armor : ArmorRecord) (data : List Nat)
    (hne : ¬ armor.length = 0) (hc : contentBytes armor = some data)
    (h1 : data.length < 2 ^ 32) (h2 : data.length + 16 < 2 ^ 32) :
    encode armor = some ⟨bufShape data, data.length, md5hex data⟩ := by
  have hs : sectionNameLengthString.length = 19 := rfl
  have hsn : sectionNameBytes.length = 19 := rfl
  have harith : ∀ n : Nat, 120 + n - 104 = n + 16 := by omega
  unfold encode
  rw [if_neg hne]
  simp only [File.tell, File.seek, hc, hs, hsn, harith, toBytes4N, h1, h2,
    if_true, write_append, List.length_nil, List.length_replicate, toLE_length,
    List.length_append, Option.bind_eq_bind, Option.some_bind,
    Nat.add_sub_cancel_left, Nat.reduceAdd, Nat.reduceSub]
  simp only [List.nil_append, List.append_assoc]
  simp only [write_peel, write_over, List.length_replicate, toLE_length,
    Nat.reduceSub, Nat.reduceLeDiff, Nat.reduceAdd]
  simp only [bufShape, Option.pure_def, List.append_assoc]

/-- The buffer produced by the encoder on an empty record. -/
theorem encode_empty :
    encode [] = some ⟨List.replicate 20 0xff ++ toLE 4 0 ++
      List.replicate 40 0xff ++ toLE 4 0, 0, md5hex []⟩ := by
  rfl

/-- Inversion: what a successful non-empty encoding must look like. -/
theorem encode_eq_some (armor : ArmorRecord) (e : Encoded)
    (hne : ¬ armor.length = 0) (h : encode armor = some e) :
    ∃ data, contentBytes armor = some data ∧ data.length < 2 ^ 32 ∧
      data.length + 16 < 2 ^ 32 ∧
      e = ⟨bufShape data, data.length, md5hex data⟩ := by
  have harith : ∀ n : Nat, 120 + n - 104 = n + 16 := by omega
  cases hcb : contentBytes armor with
  | none =>
    exfalso
    unfold encode at h
    rw [if_neg hne] at h
    simp only [hcb, Option.bind_eq_bind, Option.none_bind] at h
    exact Option.noConfusion h
  | some data =>
    by_cases h1 : data.length < 2 ^ 32
    · by_cases h2 : data.length + 16 < 2 ^ 32
      · rw [encode_shape armor data hne hcb h1 h2] at h
        exact ⟨data, rfl, h1, h2, (Option.some.injEq _ _).mp h.symm⟩
      · exfalso
        unfold encode at h
        rw [if_neg hne] at h
        simp only [File.tell, File.seek, hcb, harith, toBytes4N, h1, h2,
          if_true, if_false, write_append, List.length_nil,
          List.length_replicate, toLE_length, List.length_append,
          Option.bind_eq_bind, Option.some_bind, Option.none_bind,
          Nat.add_sub_cancel_left, Nat.reduceAdd, Nat.reduceSub] at h
        exact Option.noConfusion h
    · exfalso
      unfold encode at h
      rw [if_neg hne] at h
      simp only [File.tell, File.seek, hcb, harith, toBytes4N, h1,
        if_true, if_false, write_append, List.length_nil,
        List.length_replicate, toLE_length, List.length_append,
        Option.bind_eq_bind, Option.some_bind, Option.none_bind,
        Nat.add_sub_cancel_left, Nat.reduceAdd, Nat.reduceSub] at h
      exact Option.noConfusion h

/-- Inversion: what a successful content-region build must look like. -/
theorem contentBytes_eq_some (armor : ArmorRecord) (data : List Nat)
    (h : contentBytes armor = some data) :
    ∃ ps, armor.mapM pieceBytes = some ps ∧ armor.length < 2 ^ 32 ∧
      data = List.replicate 36 0xff ++ toLE 4 armor.length ++ ps.flatten := by
  unfold contentBytes at h
  by_cases h1 : armor.length < 2 ^ 32
  · cases hps : armor.mapM pieceBytes with
    | none =>
      simp only [toBytes4N, h1, if_true, hps, Option.bind_eq_bind,
        Option.some_bind, Option.none_bind] at h
      exact Option.noConfusion h
    | some ps =>
      refine ⟨ps, rfl, h1, ?_⟩
      simp only [toBytes4N, h1, if_true, hps, Option.bind_eq_bind,
        Option.some_bind, Option.pure_def, Option.some.injEq] at h
      exact h.symm
  · simp only [toBytes4N, h1, if_false, Option.bind_eq_bind,
      Option.none_bind] at h
    exact Option.noConfusion h

/-- Inversion: what a successful per-piece build must look like. -/
theorem pieceBytes_eq_some (p : Int × Piece) (bs : List Nat)
    (h : pieceBytes p = some bs) :
    0 ≤ p.1 ∧ p.1 < 2 ^ 32 ∧ p.2.flatten.length < 2 ^ 32 ∧
      bs = toLE 4 p.1.toNat ++ List.replicate 24 0xff ++
        toLE 4 p.2.flatten.length ++ (p.2.flatten.map packVertex).flatten := by
  unfold pieceBytes at h
  by_cases h0 : 0 ≤ p.1 ∧ p.1 < 2 ^ 32
  · by_cases h1 : p.2.flatten.length < 2 ^ 32
    · refine ⟨h0.1, h0.2, h1, ?_⟩
      simp only [toBytes4, toBytes4N, h0.1, h0.2, h1, and_self, if_true,
        Option.bind_eq_bind, Option.some_bind, Option.pure_def,
        Option.some.injEq] at h
      exact h.symm
    · simp only [toBytes4, toBytes4N, h0, h1, if_true, if_false,
        Option.bind_eq_bind, Option.some_bind, Option.none_bind] at h
      exact Option.noConfusion h
  · simp only [toBytes4, h0, if_false, Option.bind_eq_bind,
      Option.none_bind] at h
    exact Option.noConfusion h

/-! ### Parsing back what the encoder wrote -/

theorem parseVertex_packVertex (v : Vertex) (rest : List Nat)
    (hx : v.x < 2 ^ 32) (hy : v.y < 2 ^ 32) (hz : v.z < 2 ^ 32) :
    parseVertex (packVertex v ++ rest) = some (v, rest) := by
  unfold packVertex parseVertex
  simp only [List.append_assoc]
  rw [takeLE4_toLE _ _ hx]
  simp only [Option.bind_eq_bind, Option.some_bind]
  rw [takeLE4_toLE _ _ hy]
  simp only [Option.some_bind]
  rw [takeLE4_toLE _ _ hz]
  simp only [Option.some_bind]
  rw [skip_replicate]
  simp only [Option.some_bind]
  rfl

theorem parseVertices_packed : ∀ (vs : List Vertex) (rest : List Nat),
    (∀ v ∈ vs, v.x < 2 ^ 32 ∧ v.y < 2 ^ 32 ∧ v.z < 2 ^ 32) →
    parseVertices vs.length ((vs.map packVertex).flatten ++ rest) =
      some (vs, rest) := by
  intro vs
  induction vs with
  | nil => intro rest hv; simp [parseVertices]
  | cons v vs ih =>
    intro rest hv
    obtain ⟨hx, hy, hz⟩ := hv v (List.mem_cons_self v vs)
    simp only [List.map_cons, List.flatten_cons, List.length_cons,
      List.append_assoc, parseVertices]
    rw [parseVertex_packVertex v _ hx hy hz]
    simp only [Option.bind_eq_bind, Option.some_bind]
    rw [ih rest fun w hw => hv w (List.mem_cons_of_mem _ hw)]
    rfl

theorem parsePiece_pieceBytes (p : Int × Piece) (bs rest : List Nat)
    (h : pieceBytes p = some bs)
    (hv : ∀ v ∈ p.2.flatten, v.x < 2 ^ 32 ∧ v.y < 2 ^ 32 ∧ v.z < 2 ^ 32) :
    parsePiece (bs ++ rest) = some ((p.1, p.2.flatten), rest) := by
  obtain ⟨h0, hlt, hn, rfl⟩ := pieceBytes_eq_some p bs h
  have htn : p.1.toNat < 2 ^ 32 := by omega
  unfold parsePiece
  simp only [List.append_assoc]
  rw [takeLE4_toLE _ _ htn]
  simp only [Option.bind_eq_bind, Option.some_bind]
  rw [skip_replicate]
  simp only [Option.some_bind]
  rw [takeLE4_toLE _ _ hn]
  simp only [Option.some_bind]
  rw [parseVertices_packed p.2.flatten rest hv]
  simp only [Option.some_bind, Option.pure_def]
  have hid : Int.ofNat p.1.toNat = p.1 := by
    rw [Int.ofNat_eq_natCast]
    exact Int.toNat_of_nonneg h0
  rw [hid]

theorem parsePieces_mapM : ∀ (armor : ArmorRecord) (chunks : List (List Nat))
    (rest : List Nat), armor.mapM pieceBytes = some chunks →
    (∀ q ∈ armor, ∀ v ∈ q.2.flatten,
      v.x < 2 ^ 32 ∧ v.y < 2 ^ 32 ∧ v.z < 2 ^ 32) →
    parsePieces armor.length (chunks.flatten ++ rest) =
      some (armor.map fun q => (q.1, q.2.flatten), rest) := by
  intro armor
  induction armor with
  | nil =>
    intro chunks rest h hv
    simp only [List.mapM_nil, Option.pure_def, Option.some.injEq] at h
    subst h
    simp [parsePieces]
  | cons a l ih =>
    intro chunks rest h hv
    rw [List.mapM_cons] at h
    cases ha : pieceBytes a with
    | none => rw [ha] at h; simp at h
    | some b =>
      rw [ha] at h
      cases hl : l.mapM pieceBytes with
      | none => rw [hl] at h; simp at h
      | some bs =>
        rw [hl] at h
        simp only [Option.bind_eq_bind, Option.some_bind, Option.pure_def,
          Option.some.injEq] at h
        subst h
        simp only [List.length_cons, List.flatten_cons, List.append_assoc,
          parsePieces, List.map_cons]
        rw [parsePiece_pieceBytes a b _ ha (hv a (List.mem_cons_self a l))]
        simp only [Option.bind_eq_bind, Option.some_bind]
        rw [ih bs rest hl fun q hq => hv q (List.mem_cons_of_mem _ hq)]
        rfl

theorem chunk3_flatten : ∀ ts : List Triangle, (∀ t ∈ ts, t.length = 3) →
    chunk3 ts.flatten = some ts := by
  intro ts
  induction ts with
  | nil => intro h; rfl
  | cons t ts ih =>
    intro h
    obtain ⟨a, b, c, rfl⟩ :=
      List.length_eq_three.mp (h _ (List.mem_cons_self _ ts))
    rw [show ([a, b, c] :: ts : List Triangle).flatten =
      a :: b :: c :: ts.flatten from by simp]
    simp only [chunk3]
    rw [ih fun u hu => h u (List.mem_cons_of_mem _ hu)]
    rfl

theorem regroup_map : ∀ armor : ArmorRecord,
    (∀ q ∈ armor, ∀ t ∈ q.2, t.length = 3) →
    (armor.map fun q => (q.1, q.2.flatten)).mapM
      (fun q => (chunk3 q.2).map fun ts => (q.1, ts)) = some armor := by
  intro armor
  induction armor with
  | nil => intro h; rfl
  | cons a l ih =>
    intro h
    simp only [List.map_cons, List.mapM_cons]
    rw [chunk3_flatten a.2 (h a (List.mem_cons_self a l))]
    simp only [Option.map_some', Option.bind_eq_bind, Option.some_bind]
    rw [ih fun q hq => h q (List.mem_cons_of_mem _ hq)]
    rfl

/-- Dropping past a fully-consumed prefix. -/
theorem drop_through (A R : List Nat) (n : Nat) (h : A.length ≤ n) :
    (A ++ R).drop n = R.drop (n - A.length) := by
  rw [List.drop_append_eq_append_drop, List.drop_eq_nil_of_le h,
    List.nil_append]

/-- Decoding the buffer the encoder produced recovers the record. -/
theorem decode_bufShape (armor : ArmorRecord) (data : List Nat)
    (hwf : WF armor) (hc : contentBytes armor = some data)
    (h1 : data.length < 2 ^ 32) :
    decode (bufShape data) = some (armor, data.length, md5hex data) := by
  obtain ⟨ps, hps, hN, hdata⟩ := contentBytes_eq_some armor data hc
  have hv : ∀ q ∈ armor, ∀ v ∈ q.2.flatten,
      v.x < 2 ^ 32 ∧ v.y < 2 ^ 32 ∧ v.z < 2 ^ 32 := by
    intro q hq v hvmem
    obtain ⟨t, ht, hvt⟩ := List.mem_flatten.mp hvmem
    obtain ⟨hx, hy, hz⟩ := (hwf q hq t ht).2 v hvt
    exact ⟨hx.1, hy.1, hz.1⟩
  have h3 : ∀ q ∈ armor, ∀ t ∈ q.2, t.length = 3 :=
    fun q hq t ht => (hwf q hq t ht).1
  have hpp : parsePieces armor.length ps.flatten =
      some (armor.map fun q => (q.1, q.2.flatten), []) := by
    have h := parsePieces_mapM armor ps [] hps hv
    rwa [List.append_nil] at h
  have hrg := regroup_map armor h3
  have c1 : (1 : Nat) < 2 ^ 32 := by norm_num
  have c96 : (96 : Nat) < 2 ^ 32 := by norm_num
  unfold decode
  simp only [bufShape, List.append_assoc]
  simp only [drop_through, List.length_replicate, toLE_length,
    Nat.reduceLeDiff, Nat.reduceSub, Nat.reduceAdd, List.drop_zero,
    takeLE4_toLE, c1, c96, h1, Option.bind_eq_bind, Option.some_bind,
    List.take_left, eq_self_iff_true, if_true, one_ne_zero, if_false,
    Nat.reduceEqDiff]
  rw [hdata]
  simp only [List.append_assoc]
  simp only [skip_replicate, takeLE4_toLE, hN, Option.bind_eq_bind,
    Option.some_bind, hpp, hrg, eq_self_iff_true, if_true, Option.pure_def]

/-! ### Field read-back lemmas -/

/-- Dropping exactly a prefix. -/
theorem drop_seg (A R : List Nat) (n : Nat) (h : A.length = n) :
    (A ++ R).drop n = R := by
  subst h
  exact List.drop_left A R

theorem bufShape_length (data : List Nat) :
    (bufShape data).length = 120 + data.length + 19 := by
  have h19 : sectionNameBytes.length = 19 := rfl
  unfold bufShape
  simp only [List.length_append, List.length_replicate, toLE_length]
  omega

/-- The back-patched content-length field read back at offset `0x60`. -/
theorem bufShape_field_96 (data : List Nat) (h1 : data.length < 2 ^ 32) :
    (takeLE4 ((bufShape data).drop 0x60)).map Prod.fst = some data.length := by
  unfold bufShape
  simp only [List.append_assoc]
  simp only [drop_through, List.length_replicate, toLE_length,
    Nat.reduceLeDiff, Nat.reduceSub, List.drop_zero]
  rw [takeLE4_toLE _ _ h1]
  rfl

/-- The section-name-length field read back at offset `0x68`. -/
theorem bufShape_field_104 (data : List Nat) :
    (takeLE4 ((bufShape data).drop 0x68)).map Prod.fst = some 19 := by
  unfold bufShape
  simp only [List.append_assoc]
  simp only [drop_through, List.length_replicate, toLE_length,
    Nat.reduceLeDiff, Nat.reduceSub, List.drop_zero]
  rw [takeLE4_toLE _ _ (by norm_num)]
  rfl

/-- The back-patched section-name-position field read back at offset `0x70`. -/
theorem bufShape_field_112 (data : List Nat) (h2 : data.length + 16 < 2 ^ 32) :
    (takeLE4 ((bufShape data).drop 0x70)).map Prod.fst =
      some (data.length + 16) := by
  unfold bufShape
  simp only [List.append_assoc]
  simp only [drop_through, List.length_replicate, toLE_length,
    Nat.reduceLeDiff, Nat.reduceSub, List.drop_zero]
  rw [takeLE4_toLE _ _ h2]
  rfl

/-- The trailing bytes of the encoded buffer are the section name. -/
theorem bufShape_name (data : List Nat) :
    (bufShape data).drop (120 + data.length) = sectionNameBytes := by
  unfold bufShape
  rw [drop_seg]
  simp only [List.length_append, List.length_replicate, toLE_length]

/-- The content region of the encoded buffer starts at offset `0x78`. -/
theorem bufShape_content (data : List Nat) :
    (bufShape data).drop 0x78 = data ++ sectionNameBytes := by
  unfold bufShape
  simp only [List.append_assoc]
  simp only [drop_through, List.length_replicate, toLE_length,
    Nat.reduceLeDiff, Nat.reduceSub, List.drop_zero]

/-! ### Failure propagation for out-of-range piece ids -/

theorem pieceBytes_none_of_id (p : Int × Piece)
    (h : ¬ (0 ≤ p.1 ∧ p.1 < 2 ^ 32)) : pieceBytes p = none := by
  unfold pieceBytes
  simp only [toBytes4, h, if_false, Option.bind_eq_bind, Option.none_bind]

theorem mapM_pieceBytes_none : ∀ (l : ArmorRecord) (p : Int × Piece),
    p ∈ l → pieceBytes p = none → l.mapM pieceBytes = none := by
  intro l
  induction l with
  | nil => intro p hp; exact absurd hp (List.not_mem_nil p)
  | cons a t ih =>
    intro p hp hnone
    rw [List.mapM_cons]
    rcases List.mem_cons.mp hp with h | h
    · subst h
      rw [hnone]
      rfl
    · cases ha : pieceBytes a with
      | none => rfl
      | some b => rw [ih p h hnone]; rfl

theorem contentBytes_none (armor : ArmorRecord)
    (h : armor.mapM pieceBytes = none) : contentBytes armor = none := by
  unfold contentBytes
  by_cases h1 : armor.length < 2 ^ 32
  · simp only [toBytes4N, h1, if_true, h, Option.bind_eq_bind,
      Option.some_bind, Option.none_bind]
  · simp only [toBytes4N, h1, if_false, Option.bind_eq_bind,
      Option.none_bind]

theorem encode_of_contentBytes_none (armor : ArmorRecord)
    (hne : ¬ armor.length = 0) (h : contentBytes armor = none) :
    encode armor = none := by
  unfold encode
  rw [if_neg hne]
  simp only [h, Option.bind_eq_bind, Option.none_bind]

/-! ### Concrete records used as witnesses and counterexamples -/

/-- The record `{1: [[(0,0,0),(1,0,0),(0,1,0)]]}` of the spec's worked
example, with `1.0` as its single-precision bit pattern `0x3f800000`. -/
def exampleRecord : ArmorRecord :=
  [((1 : Int), [[⟨0, 0, 0⟩, ⟨0x3f800000, 0, 0⟩, ⟨0, 0x3f800000, 0⟩]])]

/-- The encoder's output on `exampleRecord`. -/
def exampleEncoded : Encoded := (encode exampleRecord).getD ⟨[], 0, ""⟩

/-! ### The claims -/

/-- Claim C1 (round-trip): for every well-formed `ArmorRecord` (each triangle
has exactly 3 vertices, each coordinate a finite single-precision float bit
pattern) that the encoder accepts, decoding the encoded bytes yields the
record back — the piece ids, their order and each piece's flattened vertex
sequence match exactly, with the triangles regenerated as consecutive groups
of 3 vertices in the original flattened order — together with the same
metadata.  The decoder is modelled from the spec, as the source only contains
the encoder. -/
theorem round_trip (r : ArmorRecord) (e : Encoded) (hwf : WF r)
    (henc : encode r = some e) : decode e.buf = some (r, e.size, e.hash) := by
  by_cases hr : r = []
  · subst hr
    rw [encode_empty] at henc
    injection henc with h
    subst h
    rfl
  · have hne : ¬ r.length = 0 := by simpa [List.length_eq_zero] using hr
    obtain ⟨data, hcb, h1, h2, rfl⟩ := encode_eq_some r e hne henc
    exact decode_bufShape r data hwf hcb h1

/-- Witness for C1 at the concrete one-piece, one-triangle record. -/
theorem round_trip_witness :
    decode exampleEncoded.buf =
      some (exampleRecord, exampleEncoded.size, exampleEncoded.hash) :=
  round_trip exampleRecord exampleEncoded (by decide) rfl

/-- Claim C2 (empty-record shape): encoding the empty record yields exactly
the 68-byte buffer made of 20 `0xFF` fill bytes, a zero 4-byte little-endian
block count, `0xFF` padding up to offset `0x40` and a zero 4-byte armor
section pointer, with metadata size 0 and hash the MD5 digest of the empty
byte string. -/
theorem empty_record_shape :
    encode [] = some ⟨List.replicate 20 0xff ++ toLE 4 0 ++
        List.replicate 40 0xff ++ toLE 4 0, 0, md5hex []⟩ ∧
      (List.replicate 20 0xff ++ toLE 4 0 ++ List.replicate 40 0xff ++
        toLE 4 0 : List Nat).length = 0x44 :=
  ⟨encode_empty, by decide⟩

/-- Claim C3, counterexample: at the concrete record `exampleRecord` the
section-name-length field read back at offset `0x68` is 19, not the 20 the
claim states, and the section-name byte string is 19 bytes long, not 20. -/
theorem section_name_counterexample :
    ¬ ((takeLE4 (exampleEncoded.buf.drop 0x68)).map Prod.fst = some 20 ∧
        sectionNameBytes.length = 20) := by
  decide

/-- Claim C3 as amended: for every non-empty record the encoder appends as
trailing section name the ASCII bytes of `"CM_PA_united.armor"` followed by
one NUL byte, totalling 19 bytes, and the section-name-length field at offset
`0x68` holds the value 19. -/
theorem section_name_amended (r : ArmorRecord) (e : Encoded) (hne : r ≠ [])
    (henc : encode r = some e) :
    sectionNameBytes.length = 19 ∧
    e.buf.drop (e.buf.length - 19) = sectionNameBytes ∧
    (takeLE4 (e.buf.drop 0x68)).map Prod.fst = some 19 := by
  have hne' : ¬ r.length = 0 := by simpa [List.length_eq_zero] using hne
  obtain ⟨data, hcb, h1, h2, rfl⟩ := encode_eq_some r e hne' henc
  dsimp only
  refine ⟨rfl, ?_, bufShape_field_104 data⟩
  rw [bufShape_length]
  have h : 120 + data.length + 19 - 19 = 120 + data.length := by omega
  rw [h]
  exact bufShape_name data

/-- Witness for the amended C3 at the concrete record. -/
theorem section_name_amended_witness :
    sectionNameBytes.length = 19 ∧
    exampleEncoded.buf.drop (exampleEncoded.buf.length - 19) =
      sectionNameBytes ∧
    (takeLE4 (exampleEncoded.buf.drop 0x68)).map Prod.fst = some 19 :=
  section_name_amended exampleRecord exampleEncoded (by decide) rfl

/-- Claim C4 (metadata correctness): for every non-empty record the metadata
size is the byte length of the content region — the bytes from offset `0x78`
up to the trailing 19-byte section name — and the hash is the MD5 digest of
exactly those bytes, so re-slicing the encoded buffer at the content-region
bounds rebuilds the content region and hashing it reproduces the hash. -/
theorem metadata_correctness (r : ArmorRecord) (e : Encoded) (hne : r ≠ [])
    (henc : encode r = some e) :
    0x78 + e.size + sectionNameBytes.length = e.buf.length ∧
    contentBytes r = some ((e.buf.drop 0x78).take e.size) ∧
    md5hex ((e.buf.drop 0x78).take e.size) = e.hash := by
  have hne' : ¬ r.length = 0 := by simpa [List.length_eq_zero] using hne
  obtain ⟨data, hcb, h1, h2, rfl⟩ := encode_eq_some r e hne' henc
  dsimp only
  have htake : ((bufShape data).drop 0x78).take data.length = data := by
    rw [bufShape_content]
    exact List.take_left data sectionNameBytes
  refine ⟨?_, ?_, ?_⟩
  · rw [bufShape_length]
    rfl
  · rw [htake]
    exact hcb
  · rw [htake]

/-- Witness for C4 at the concrete record. -/
theorem metadata_correctness_witness :
    0x78 + exampleEncoded.size + sectionNameBytes.length =
      exampleEncoded.buf.length ∧
    contentBytes exampleRecord =
      some ((exampleEncoded.buf.drop 0x78).take exampleEncoded.size) ∧
    md5hex ((exampleEncoded.buf.drop 0x78).take exampleEncoded.size) =
      exampleEncoded.hash :=
  metadata_correctness exampleRecord exampleEncoded (by decide) rfl

/-- Claim C5 (back-patch correctness): for every non-empty record the 4-byte
content-length field read back at its reserved offset `0x60` equals the
metadata size, and the 4-byte section-name-position field read back at its
reserved offset `0x70` equals the byte distance from the section-name-length
field at offset `0x68` to the first byte of the literal section-name string
(which occupies the final 19 bytes of the buffer). -/
theorem back_patch_correctness (r : ArmorRecord) (e : Encoded) (hne : r ≠ [])
    (henc : encode r = some e) :
    (takeLE4 (e.buf.drop 0x60)).map Prod.fst = some e.size ∧
    (takeLE4 (e.buf.drop 0x70)).map Prod.fst =
      some ((e.buf.length - sectionNameBytes.length) - 0x68) := by
  have hne' : ¬ r.length = 0 := by simpa [List.length_eq_zero] using hne
  obtain ⟨data, hcb, h1, h2, rfl⟩ := encode_eq_some r e hne' henc
  dsimp only
  refine ⟨bufShape_field_96 data h1, ?_⟩
  rw [bufShape_length]
  have h19 : sectionNameBytes.length = 19 := rfl
  have h : 120 + data.length + 19 - sectionNameBytes.length - 0x68 =
      data.length + 16 := by
    rw [h19]
    omega
  rw [h]
  exact bufShape_field_112 data h2

/-- Witness for C5 at the concrete record. -/
theorem back_patch_correctness_witness :
    (takeLE4 (exampleEncoded.buf.drop 0x60)).map Prod.fst =
      some exampleEncoded.size ∧
    (takeLE4 (exampleEncoded.buf.drop 0x70)).map Prod.fst =
      some ((exampleEncoded.buf.length - sectionNameBytes.length) - 0x68) :=
  back_patch_correctness exampleRecord exampleEncoded (by decide) rfl

/-- Claim C6 (worked example): the record `{1: [[(0,0,0),(1,0,0),(0,1,0)]]}`
has a content region of exactly 120 bytes, with piece-count field equal to 1
(at content offset 36) and vertex-count field equal to 3 (at content offset
68). -/
theorem worked_example :
    (contentBytes exampleRecord).map List.length = some 120 ∧
    (contentBytes exampleRecord).map
      (fun d => (takeLE4 (d.drop 36)).map Prod.fst) = some (some 1) ∧
    (contentBytes exampleRecord).map
      (fun d => (takeLE4 (d.drop 68)).map Prod.fst) = some (some 3) := by
  decide

/-- Claim C7 (id overflow): encoding a record containing a piece whose id is
at least `2^32` fails hard (Python's `int.to_bytes` raises `OverflowError`);
no buffer with a truncated id is ever produced. -/
theorem id_overflow (r : ArmorRecord) (p : Int × Piece) (hmem : p ∈ r)
    (hid : (2 : Int) ^ 32 ≤ p.1) : encode r = none := by
  have hne : ¬ r.length = 0 := by
    intro h0
    rw [List.length_eq_zero] at h0
    subst h0
    exact absurd hmem (List.not_mem_nil p)
  apply encode_of_contentBytes_none r hne
  apply contentBytes_none
  apply mapM_pieceBytes_none r p hmem
  apply pieceBytes_none_of_id
  intro hcon
  exact absurd hcon.2 (not_lt.mpr hid)

/-- Witness for C7 at a record with the single piece id `2^32`. -/
theorem id_overflow_witness : encode [((2 : Int) ^ 32, [])] = none :=
  id_overflow [((2 : Int) ^ 32, [])] ((2 : Int) ^ 32, [])
    (List.mem_singleton.mpr rfl) (le_refl _)

/-- Claim C8 (empty-iff invariant): for every record the encoder accepts, the
metadata satisfies `size = 0` and `hash = md5("")` exactly when the record has
zero pieces, and every non-empty record yields a strictly positive
content-region size. -/
theorem empty_iff_invariant (r : ArmorRecord) (e : Encoded)
    (henc : encode r = some e) :
    ((e.size = 0 ∧ e.hash = md5hex []) ↔ r = []) ∧ (r ≠ [] → 0 < e.size) := by
  by_cases hr : r = []
  · subst hr
    rw [encode_empty] at henc
    injection henc with h
    subst h
    simp
  · have hne : ¬ r.length = 0 := by simpa [List.length_eq_zero] using hr
    obtain ⟨data, hcb, h1, h2, rfl⟩ := encode_eq_some r e hne henc
    obtain ⟨ps, hps, hN, hdata⟩ := contentBytes_eq_some r data hcb
    have hpos : 0 < data.length := by
      subst hdata
      simp only [List.length_append, List.length_replicate, toLE_length]
      omega
    dsimp only
    constructor
    · constructor
      · intro hsz
        exact absurd hsz.1 (by omega)
      · intro h
        exact absurd h hr
    · intro _
      exact hpos

/-- Witness for C8 at the concrete record. -/
theorem empty_iff_invariant_witness :
    ((exampleEncoded.size = 0 ∧ exampleEncoded.hash = md5hex []) ↔
      exampleRecord = []) ∧
    (exampleRecord ≠ [] → 0 < exampleEncoded.size) :=
  empty_iff_invariant exampleRecord exampleEncoded rfl

/-- Claim C9 (implicit, negative ids): encoding a record containing a piece
whose id is negative fails hard — a negative id cannot be written as an
unsigned 32-bit little-endian field — exactly as for ids at or above `2^32`. -/
theorem negative_id (r : ArmorRecord) (p : Int × Piece) (hmem : p ∈ r)
    (hid : p.1 < 0) : encode r = none := by
  have hne : ¬ r.length = 0 := by
    intro h0
    rw [List.length_eq_zero] at h0
    subst h0
    exact absurd hmem (List.not_mem_nil p)
  apply encode_of_contentBytes_none r hne
  apply contentBytes_none
  apply mapM_pieceBytes_none r p hmem
  apply pieceBytes_none_of_id
  intro hcon
  exact absurd hcon.1 (not_le.mpr hid)

/-- Witness for C9 at a record with the single piece id `-1`. -/
theorem negative_id_witness : encode [((-1 : Int), [])] = none :=
  negative_id [((-1 : Int), [])] ((-1 : Int), [])
    (List.mem_singleton.mpr rfl) (by norm_num)

/-- Claim C10 (implicit): for every non-empty record the back-patched
section-name-position field read back at offset `0x70` equals the metadata
size plus 16, since two 8-byte header field pairs separate the
section-name-length field from the content region and the section name
immediately follows the content region. -/
theorem section_name_position_value (r : ArmorRecord) (e : Encoded)
    (hne : r ≠ []) (henc : encode r = some e) :
    (takeLE4 (e.buf.drop 0x70)).map Prod.fst = some (e.size + 16) := by
  have hne' : ¬ r.length = 0 := by simpa [List.length_eq_zero] using hne
  obtain ⟨data, hcb, h1, h2, rfl⟩ := encode_eq_some r e hne' henc
  dsimp only
  exact bufShape_field_112 data h2

/-- Witness for C10 at the concrete record. -/
theorem section_name_position_value_witness :
    (takeLE4 (exampleEncoded.buf.drop 0x70)).map Prod.fst =
      some (exampleEncoded.size + 16) :=
  section_name_position_value exampleRecord exampleEncoded (by decide) rfl

end Quartersbrief

